import Mathlib

/-
Verification development for the pqueue package: a Maildir-style persistent
job queue backed by the local filesystem.

The Go source (pqueue.go) is shallowly embedded as follows.

- Directory listings are lists of entry names (a real directory never holds
  two entries with the same name, so Nodup hypotheses appear where needed).
- The queue root is a QState record holding the listings of the five fixed
  subdirectories (tmp, new, cur, done, failed); cur is an association list
  from worker-slot names to the job names held in each slot.
- os.Rename of a job directory is modelled by renameDir: it fails with
  notExist when the source entry or the destination directory is missing
  (both give ENOENT, for which os.IsNotExist is true) and with exist when
  the destination name is already taken; otherwise it atomically moves the
  entry.  Renames never partially apply.
- strconv.Atoi and strconv.Itoa are modelled by atoi and itoa over
  unbounded integers (machine overflow of the pid is not modelled).
- syscall.Kill-based liveness probing (processExists) is an external
  primitive; it is modelled by an oracle of type Int -> ProbeResult.
- log output is modelled as a list of message strings accumulated by the
  rescue sweep; the exact format is not part of the contract, only the
  occurrence of a message per event.
-/

namespace Pqueue

/-- Decimal digit character for a single digit value; values ten and above
never occur in reachable calls (model of the digit emission inside
strconv.Itoa). -/
def digitChar : Nat → Char
  | 0 => '0'
  | 1 => '1'
  | 2 => '2'
  | 3 => '3'
  | 4 => '4'
  | 5 => '5'
  | 6 => '6'
  | 7 => '7'
  | 8 => '8'
  | 9 => '9'
  | _ => '?'

/-- Numeric value of a decimal digit character, none for a non-digit
(models the per-character digit check of strconv.ParseInt, base 10). -/
def digVal (c : Char) : Option Nat :=
  if 48 ≤ c.toNat ∧ c.toNat ≤ 57 then some (c.toNat - 48) else none

/-- Left-to-right accumulating decimal parser, failing on the first
non-digit character (models the digit loop of strconv.ParseInt; the model
uses unbounded naturals, so range errors are not modelled). -/
def parseDigitsFrom (a : Nat) : List Char → Option Nat
  | [] => some a
  | c :: cs =>
    match digVal c with
    | none => none
    | some d => parseDigitsFrom (a * 10 + d) cs

/-- Parse a nonempty run of decimal digits; empty input is a syntax error,
as in strconv.ParseInt. -/
def parseDigits (l : List Char) : Option Nat :=
  match l with
  | [] => none
  | _ :: _ => parseDigitsFrom 0 l

/-- Fuel-indexed decimal printer: emits the digits of n, most significant
first, in front of acc.  The fuel-zero fallback is never reached when the
fuel is at least n. -/
def natToDigitsAux : Nat → Nat → List Char → List Char
  | 0, n, acc => digitChar n :: acc
  | fuel + 1, n, acc =>
    if n < 10 then digitChar n :: acc
    else natToDigitsAux fuel (n / 10) (digitChar (n % 10) :: acc)

/-- Decimal digits of a natural number, most significant first. -/
def natToDigits (n : Nat) : List Char := natToDigitsAux n n []

/-- Model of strconv.Itoa: canonical decimal representation of an integer,
with a leading minus sign for negative values and no leading zeros. -/
def itoa : Int → String
  | .ofNat n => String.mk (natToDigits n)
  | .negSucc n => String.mk ('-' :: natToDigits (n + 1))

/-- Model of strconv.Atoi: an optional single leading plus or minus sign
followed by a nonempty run of decimal digits; anything else is an error
(returned as none). -/
def atoi (s : String) : Option Int :=
  match s.data with
  | [] => none
  | c :: rest =>
    if c = '+' then (parseDigits rest).map Int.ofNat
    else if c = '-' then (parseDigits rest).map (fun n => -(n : Int))
    else (parseDigits (c :: rest)).map Int.ofNat

/-! Association lists of directory entries.  A directory maps entry names to
contents; lookups and updates walk the list and act on the first binding,
which is the only binding when the key list is duplicate-free, as it always
is for a real directory. -/

/-- Look up the content bound to a name. -/
def alookup {α : Type} : List (String × α) → String → Option α
  | [], _ => none
  | (k, v) :: rest, key => if k = key then some v else alookup rest key

/-- Bind a name to new content, overwriting an existing binding and
appending a fresh one otherwise. -/
def ainsert {α : Type} : List (String × α) → String → α → List (String × α)
  | [], key, v => [(key, v)]
  | (k, w) :: rest, key, v =>
    if k = key then (k, v) :: rest else (k, w) :: ainsert rest key v

/-- Replace the content bound to a name, leaving the list unchanged when the
name is absent. -/
def supdate {α : Type} : List (String × α) → String → α → List (String × α)
  | [], _, _ => []
  | (k, w) :: rest, key, v =>
    if k = key then (k, v) :: rest else (k, w) :: supdate rest key v

/-- Delete the binding of a name, leaving the list unchanged when the name is
absent. -/
def aerase {α : Type} : List (String × α) → String → List (String × α)
  | [], _ => []
  | (k, w) :: rest, key => if k = key then rest else (k, w) :: aerase rest key

/-! The queue state.  A Queue owns a base directory with the five fixed
subdirectories created by OpenQueue.  Each job is a directory; only its name
matters for the lifecycle operations, so listings are lists of names. -/

/-- The filesystem state of one queue root: the listings of tmp, new, done
and failed, and, for cur, the per-worker slots with the job names each one
holds. -/
structure QState where
  tmp : List String
  new : List String
  cur : List (String × List String)
  done : List String
  failed : List String
deriving Repr, DecidableEq

/-- A directory that can hold a job, i.e. the parent component of the dir
field of a Go Job value. -/
inductive JLoc where
  | tmp
  | new
  | cur (slot : String)
  | done
  | failed
deriving Repr, DecidableEq

/-- A Job value: Basename plus the directory the job currently sits in
(together they model the dir field, which is basedir/loc/Basename). -/
structure JobH where
  basename : String
  loc : JLoc
deriving Repr, DecidableEq

/-- Rename failures distinguished by the code: notExist covers ENOENT (the
source entry, or the destination parent directory, is missing — exactly the
errors for which os.IsNotExist is true), exist covers an already-taken
destination name, other is any remaining failure. -/
inductive FsErr where
  | notExist
  | exist
  | other (msg : String)
deriving Repr, DecidableEq

/-- The listing of one job-holding directory, none when the directory does
not exist (a cur slot that was never created or was removed). -/
def listDirOpt (st : QState) : JLoc → Option (List String)
  | .tmp => some st.tmp
  | .new => some st.new
  | .cur s => alookup st.cur s
  | .done => some st.done
  | .failed => some st.failed

/-- Replace the listing of one directory. -/
def setDirList (st : QState) : JLoc → List String → QState
  | .tmp, l => { st with tmp := l }
  | .new, l => { st with new := l }
  | .cur s, l => { st with cur := supdate st.cur s l }
  | .done, l => { st with done := l }
  | .failed, l => { st with failed := l }

/-- Move one entry between directories: remove it from the source listing
and append it to the destination listing. -/
def moveName (st : QState) (src : JLoc) (name : String) (dst : JLoc) : QState :=
  let st₁ := setDirList st src (((listDirOpt st src).getD []).erase name)
  setDirList st₁ dst (((listDirOpt st₁ dst).getD []) ++ [name])

/-- Model of os.Rename on a job directory: fails with ENOENT when the
source entry or the destination directory is missing, and with an
EEXIST/ENOTEMPTY-style error when the destination name is already taken
(renaming one directory onto another nonempty directory fails); otherwise
the entry moves atomically. -/
def renameDir (st : QState) (src : JLoc) (name : String) (dst : JLoc) :
    Except FsErr QState :=
  match listDirOpt st src with
  | none => .error .notExist
  | some l =>
    if name ∈ l then
      match listDirOpt st dst with
      | none => .error .notExist
      | some l₂ =>
        if name ∈ l₂ then .error .exist
        else .ok (moveName st src name dst)
    else .error .notExist

/-- Result of one state-transition method on a Job: the returned error, the
filesystem state afterwards, and the Job value afterwards (the Go methods
assign the new dir to the job only after a successful rename). -/
structure OpResult where
  err : Option FsErr
  st : QState
  job : JobH
deriving Repr, DecidableEq

/-- Job.Submit: rename the job directory from its current location into new,
under its existing Basename; update the job location only on success. -/
def submit (st : QState) (j : JobH) : OpResult :=
  match renameDir st j.loc j.basename .new with
  | .error e => ⟨some e, st, j⟩
  | .ok st₂ => ⟨none, st₂, { j with loc := .new }⟩

/-- Job.Finish: rename the job directory into done; update the job location
only on success. -/
def finish (st : QState) (j : JobH) : OpResult :=
  match renameDir st j.loc j.basename .done with
  | .error e => ⟨some e, st, j⟩
  | .ok st₂ => ⟨none, st₂, { j with loc := .done }⟩

/-- Job.Fail: rename the job directory into failed; update the job location
only on success. -/
def fail (st : QState) (j : JobH) : OpResult :=
  match renameDir st j.loc j.basename .failed with
  | .error e => ⟨some e, st, j⟩
  | .ok st₂ => ⟨none, st₂, { j with loc := .failed }⟩

/-- Outcome of one iteration of the Take loop (and of Take itself when the
iteration does not continue): noneAvail models the (nil, nil) return for an
empty listing, took carries the new state and the returned Job, wouldRetry
is the continue branch taken when os.IsNotExist holds of the rename error,
ioError is any other error returned to the caller. -/
inductive TakeOut where
  | noneAvail
  | took (st : QState) (j : JobH)
  | wouldRetry
  | ioError (e : FsErr)
deriving Repr, DecidableEq

/-- One iteration of Queue.Take for the worker owning slot: list new (the
listing is taken from stL, the state at listing time), return noneAvail if
it is empty, otherwise pick the name at index pick mod length (modelling
rand.Intn) and attempt the rename into the slot, evaluated on stR, the
state at rename time.  Concurrent processes may change the filesystem
between the two observations, which is why the iteration takes both. -/
def takeStep (slot : String) (stL stR : QState) (pick : Nat) : TakeOut :=
  let names := stL.new
  if names.length = 0 then .noneAvail
  else
    let b := names.getD (pick % names.length) ""
    match renameDir stR .new b (.cur slot) with
    | .ok st₂ => .took st₂ ⟨b, .cur slot⟩
    | .error .notExist => .wouldRetry
    | .error e => .ioError e

/-- Queue.Take as a loop over the per-iteration filesystem observations:
each wouldRetry iteration continues with the next observation; running out
of modelled observations (an unboundedly retrying call) yields none. -/
def take (slot : String) : List (QState × QState × Nat) → Option TakeOut
  | [] => none
  | (stL, stR, pick) :: rest =>
    match takeStep slot stL stR pick with
    | .wouldRetry => take slot rest
    | r => some r

/-! The property store.  Properties of a job are files inside the job
directory; file contents are byte lists.  Job.Set writes a fresh uniquely
named temporary file in tmp, closes it and renames it over the property
file; each step can fail, and the failure environment below says which (a
rename over an existing file replaces it atomically, so no exist failure
arises here). -/

/-- Which steps of Job.Set succeed: creation of the temporary file, the
write, the close, and the final rename. -/
structure SetEnv where
  tempOk : Bool
  writeOk : Bool
  closeOk : Bool
  renameOk : Bool
deriving Repr, DecidableEq

/-- Result of Job.Set: the returned error, the tmp directory contents
(name to bytes), and the property files of the job directory. -/
structure SetOut where
  err : Option String
  tmpFiles : List (String × List Nat)
  props : List (String × List Nat)
deriving Repr, DecidableEq

/-- Job.Set: create a uniquely named temporary file (tempName, assumed
fresh) in tmp, write data to it, close it, and rename it onto the property
file key in the job directory.  On any failure the error is returned at
once: a partly written temporary file may be left behind in tmp, but the
job directory is only touched by the final atomic rename. -/
def jobSet (tmpFiles props : List (String × List Nat)) (key : String)
    (data : List Nat) (tempName : String) (env : SetEnv) : SetOut :=
  if env.tempOk = false then ⟨some "TempFile", tmpFiles, props⟩
  else
    let t₁ := ainsert tmpFiles tempName []
    if env.writeOk = false then ⟨some "Write", t₁, props⟩
    else
      let t₂ := ainsert t₁ tempName data
      if env.closeOk = false then ⟨some "Close", t₂, props⟩
      else if env.renameOk = false then ⟨some "Rename", t₂, props⟩
      else ⟨none, aerase t₂ tempName, ainsert props key data⟩

/-- Job.Get: read the property file key in the job directory; a missing
file is the not-found error of ioutil.ReadFile. -/
def jobGet (props : List (String × List Nat)) (key : String) :
    Except String (List Nat) :=
  match alookup props key with
  | some v => .ok v
  | none => .error "NotFound"

/-! Queue bootstrap.  The root directory must already exist; OpenQueue
creates the fixed subdirectories and the owner slot of the calling process,
treating an already existing directory as success.  The filesystem is
modelled as the list of subdirectory paths (relative to the root) that
exist. -/

/-- Outcome of os.Mkdir: the new filesystem, or the EEXIST error. -/
inductive MkdirOut where
  | made (fs : List String)
  | errExist
deriving Repr, DecidableEq

/-- Model of os.Mkdir under an existing, writable root: fails exactly when
the directory already exists. -/
def mkdir (fs : List String) (d : String) : MkdirOut :=
  if d ∈ fs then .errExist else .made (fs ++ [d])

/-- ensuredir: tolerate the already-exists failure of Mkdir as success. -/
def ensuredir (fs : List String) (d : String) : Except String (List String) :=
  match mkdir fs d with
  | .made fs₂ => .ok fs₂
  | .errExist => .ok fs

/-- The subdirectories OpenQueue ensures, in creation order; the last is
the owner slot of the process with identifier pid. -/
def queueSubdirs (pid : Int) : List String :=
  ["tmp", "new", "cur", "done", "failed", "cur/" ++ itoa pid]

/-- The loop body of OpenQueue: ensure each directory in turn, returning
the first error (there is none in this model, where the root exists and is
writable). -/
def ensureAll (fs : List String) : List String → Except String (List String)
  | [] => .ok fs
  | d :: ds =>
    match ensuredir fs d with
    | .error e => .error e
    | .ok fs₂ => ensureAll fs₂ ds

/-- OpenQueue on a root whose current subdirectories are fs, called by a
process with identifier pid. -/
def openQueue (fs : List String) (pid : Int) : Except String (List String) :=
  ensureAll fs (queueSubdirs pid)

/-! The rescue sweep.  RescueDeadJobs lists cur, parses each entry name as
a pid, probes its liveness, and for each dead pid moves the jobs out of the
slot directory derived from the parsed pid back into new, then removes the
slot.  Note that the slot it reads and removes is cur/Itoa(pid), the
canonical rendering of the parsed pid, not the listed name itself. -/

/-- Outcome of the processExists liveness probe: alive, dead (ESRCH), or a
probe error such as EPERM (the outcome is then indeterminate). -/
inductive ProbeResult where
  | alive
  | dead
  | err (msg : String)
deriving Repr, DecidableEq

/-- Accumulator of rescueDeadJobsFrom: the listing of new so far, the jobs
whose rename failed and therefore stay in the slot, and the log lines. -/
structure RescueFromAcc where
  new : List String
  remaining : List String
  log : List String
deriving Repr, DecidableEq

/-- One job move of rescueDeadJobsFrom: rename slot/j to new/j, which fails
when the name is already taken in new; a failure is logged and the job
stays behind. -/
def rescueFromStep (acc : RescueFromAcc) (j : String) : RescueFromAcc :=
  if j ∈ acc.new then
    { acc with remaining := acc.remaining ++ [j],
               log := acc.log ++ ["Failed to reschedule job " ++ j] }
  else
    { acc with new := acc.new ++ [j],
               log := acc.log ++ ["Rescueduled job " ++ j] }

/-- rescueDeadJobsFrom for a slot currently holding jobs: move each one
into new in listing order. -/
def rescueFrom (new : List String) (jobs : List String) : RescueFromAcc :=
  jobs.foldl rescueFromStep ⟨new, [], []⟩

/-- Accumulator of the rescue sweep: the filesystem state and the log. -/
structure SweepAcc where
  st : QState
  log : List String
deriving Repr, DecidableEq

/-- One iteration of the RescueDeadJobs loop for a listed entry name s of
cur: parse s as a pid (skip with a log line on failure), probe liveness
(skip silently when alive, skip with a log line on a probe error), and for
a dead pid rescue the jobs of the slot directory cur/Itoa(pid) and remove
it; a missing slot directory makes the listing inside rescueDeadJobsFrom
fail (logged) so that nothing moves, and the removal fail too (logged); a
slot left nonempty by failed job moves makes the removal fail (logged). -/
def rescueStep (probe : Int → ProbeResult) (acc : SweepAcc) (s : String) :
    SweepAcc :=
  match atoi s with
  | none => { acc with log := acc.log ++ ["Does not look like a PID: " ++ s] }
  | some pid =>
    match probe pid with
    | .alive => acc
    | .err m =>
      { acc with log := acc.log ++ ["Kill failed for PID " ++ itoa pid ++ ": " ++ m] }
    | .dead =>
      let slotName := itoa pid
      let logged := acc.log ++ ["Process " ++ slotName ++ " has gone away"]
      match alookup acc.st.cur slotName with
      | none =>
        { acc with
          log := logged
            ++ ["Could not rescue dead jobs from pid " ++ slotName]
            ++ ["Failed to rmdir cur/" ++ slotName] }
      | some jobs =>
        let r := rescueFrom acc.st.new jobs
        if r.remaining = [] then
          { st := { acc.st with new := r.new, cur := aerase acc.st.cur slotName },
            log := logged ++ r.log }
        else
          { st :=
              { acc.st with
                new := r.new
                cur := supdate acc.st.cur slotName r.remaining },
            log := logged ++ r.log ++ ["Failed to rmdir cur/" ++ slotName] }

/-- Queue.RescueDeadJobs: fold the per-entry iteration over the listing of
cur taken at the start of the sweep (the initial listing of cur itself is
assumed readable; a failure there returns early and is outside this
model). -/
def rescueDeadJobs (probe : Int → ProbeResult) (st : QState) : SweepAcc :=
  (st.cur.map Prod.fst).foldl (rescueStep probe) ⟨st, []⟩

/-- Invariant of the rescue sweep used to reason about one distinguished
slot s with initial jobs J in the initial state st₀: the slot keys stay
duplicate-free, every slot still present holds a subset of its initial
jobs, and slot s is either still pending (unchanged, none of its jobs in
new yet) or done (removed, all of its jobs in new). -/
def RescueInv (st₀ : QState) (s : String) (J : List String) (acc : SweepAcc) :
    Prop :=
  (acc.st.cur.map Prod.fst).Nodup ∧
  (∀ t l, alookup acc.st.cur t = some l →
    ∃ l₀, alookup st₀.cur t = some l₀ ∧ l ⊆ l₀) ∧
  ((alookup acc.st.cur s = some J ∧ ∀ j ∈ J, j ∉ acc.st.new) ∨
   (alookup acc.st.cur s = none ∧ ∀ j ∈ J, j ∈ acc.st.new))

theorem natToDigitsAux_lt10 (fuel n : Nat) (h : n < 10) (acc : List Char) :
    natToDigitsAux fuel n acc = digitChar n :: acc := by
  cases fuel with
  | zero => rfl
  | succ f => simp [natToDigitsAux, h]

theorem natToDigitsAux_acc (fuel : Nat) :
    ∀ n acc, natToDigitsAux fuel n acc = natToDigitsAux fuel n [] ++ acc := by
  induction fuel with
  | zero => intro n acc; rfl
  | succ f ih =>
    intro n acc
    by_cases h : n < 10
    · simp [natToDigitsAux, h]
    · simp only [natToDigitsAux, h, if_false]
      rw [ih (n / 10) (digitChar (n % 10) :: acc), ih (n / 10) [digitChar (n % 10)]]
      simp

theorem natToDigitsAux_fuel :
    ∀ n f₁ f₂ acc, n ≤ f₁ → n ≤ f₂ →
      natToDigitsAux f₁ n acc = natToDigitsAux f₂ n acc := by
  intro n
  induction n using Nat.strong_induction_on with
  | _ n ih =>
    intro f₁ f₂ acc h₁ h₂
    by_cases h : n < 10
    · rw [natToDigitsAux_lt10 _ _ h, natToDigitsAux_lt10 _ _ h]
    · push_neg at h
      obtain ⟨g₁, rfl⟩ : ∃ g, f₁ = g + 1 := ⟨f₁ - 1, by omega⟩
      obtain ⟨g₂, rfl⟩ : ∃ g, f₂ = g + 1 := ⟨f₂ - 1, by omega⟩
      simp only [natToDigitsAux, Nat.not_lt.mpr h, if_false]
      exact ih (n / 10) (by omega) g₁ g₂ _ (by omega) (by omega)

theorem natToDigits_lt10 (n : Nat) (h : n < 10) : natToDigits n = [digitChar n] :=
  natToDigitsAux_lt10 n n h []

theorem natToDigits_ge10 (n : Nat) (h : 10 ≤ n) :
    natToDigits n = natToDigits (n / 10) ++ [digitChar (n % 10)] := by
  obtain ⟨m, rfl⟩ : ∃ m, n = m + 1 := ⟨n - 1, by omega⟩
  show natToDigitsAux (m + 1) (m + 1) [] = _
  simp only [natToDigitsAux, Nat.not_lt.mpr h, if_false]
  rw [natToDigitsAux_fuel ((m + 1) / 10) m ((m + 1) / 10) _ (by omega) (by omega)]
  rw [natToDigitsAux_acc]
  rfl

theorem digVal_digitChar (d : Nat) (h : d < 10) : digVal (digitChar d) = some d := by
  interval_cases d <;> decide

theorem digitChar_ne_plus (d : Nat) (h : d < 10) : digitChar d ≠ '+' := by
  interval_cases d <;> decide

theorem digitChar_ne_minus (d : Nat) (h : d < 10) : digitChar d ≠ '-' := by
  interval_cases d <;> decide

theorem parseDigitsFrom_append (l₁ : List Char) :
    ∀ a l₂, parseDigitsFrom a (l₁ ++ l₂) =
      (parseDigitsFrom a l₁).bind (fun b => parseDigitsFrom b l₂) := by
  induction l₁ with
  | nil => intro a l₂; rfl
  | cons c cs ih =>
    intro a l₂
    cases h : digVal c with
    | none => simp [parseDigitsFrom, h]
    | some d => simp [parseDigitsFrom, h, ih]

theorem parseDigitsFrom_natToDigits :
    ∀ n a, parseDigitsFrom a (natToDigits n) =
      some (a * 10 ^ (natToDigits n).length + n) := by
  intro n
  induction n using Nat.strong_induction_on with
  | _ n ih =>
    intro a
    by_cases h : n < 10
    · rw [natToDigits_lt10 n h]
      simp [parseDigitsFrom, digVal_digitChar n h]
    · push_neg at h
      rw [natToDigits_ge10 n h, parseDigitsFrom_append]
      rw [ih (n / 10) (by omega) a]
      simp only [Option.some_bind, parseDigitsFrom, digVal_digitChar (n % 10) (by omega)]
      have hlen : (natToDigits (n / 10) ++ [digitChar (n % 10)]).length =
          (natToDigits (n / 10)).length + 1 := by simp
      rw [hlen]
      congr 1
      have hmod : 10 * (n / 10) + n % 10 = n := Nat.div_add_mod n 10
      calc (a * 10 ^ (natToDigits (n / 10)).length + n / 10) * 10 + n % 10
          = a * (10 ^ (natToDigits (n / 10)).length * 10) + (10 * (n / 10) + n % 10) := by
            ring
        _ = a * 10 ^ ((natToDigits (n / 10)).length + 1) + n := by rw [hmod, pow_succ]

theorem natToDigits_head (n : Nat) :
    ∃ d t, d < 10 ∧ natToDigits n = digitChar d :: t := by
  induction n using Nat.strong_induction_on with
  | _ n ih =>
    by_cases h : n < 10
    · exact ⟨n, [], h, natToDigits_lt10 n h⟩
    · push_neg at h
      obtain ⟨d, t, hd, ht⟩ := ih (n / 10) (by omega)
      exact ⟨d, t ++ [digitChar (n % 10)], hd, by rw [natToDigits_ge10 n h, ht]; rfl⟩

theorem parseDigits_natToDigits (n : Nat) : parseDigits (natToDigits n) = some n := by
  obtain ⟨d, t, _, ht⟩ := natToDigits_head n
  have := parseDigitsFrom_natToDigits n 0
  rw [ht] at this ⊢
  simpa using this

theorem atoi_itoa (i : Int) : atoi (itoa i) = some i := by
  cases i with
  | ofNat n =>
    obtain ⟨d, t, hd, ht⟩ := natToDigits_head n
    show atoi (String.mk (natToDigits n)) = some (Int.ofNat n)
    rw [atoi, ht]
    simp only [digitChar_ne_plus d hd, digitChar_ne_minus d hd, if_false]
    rw [← ht, parseDigits_natToDigits]
    rfl
  | negSucc n =>
    show atoi (String.mk ('-' :: natToDigits (n + 1))) = some (Int.negSucc n)
    rw [atoi]
    simp only [reduceCtorEq, if_false, if_true, reduceIte]
    rw [parseDigits_natToDigits]
    simp [Int.negSucc_eq]

theorem itoa_inj {a b : Int} (h : itoa a = itoa b) : a = b := by
  have ha := atoi_itoa a
  rw [h, atoi_itoa b] at ha
  exact (Option.some_injective _ ha).symm

theorem alookup_ainsert_self {α : Type} (l : List (String × α)) (k : String) (v : α) :
    alookup (ainsert l k v) k = some v := by
  induction l with
  | nil => simp [ainsert, alookup]
  | cons p rest ih =>
    obtain ⟨k₀, w⟩ := p
    by_cases h : k₀ = k <;> simp [ainsert, alookup, h, ih]

theorem alookup_ainsert_ne {α : Type} (l : List (String × α)) (k k₂ : String) (v : α)
    (h : k₂ ≠ k) : alookup (ainsert l k v) k₂ = alookup l k₂ := by
  induction l with
  | nil => simp [ainsert, alookup, Ne.symm h]
  | cons p rest ih =>
    obtain ⟨k₀, w⟩ := p
    by_cases h₀ : k₀ = k
    · subst h₀
      simp [ainsert, alookup, Ne.symm h]
    · by_cases h₂ : k₀ = k₂ <;> simp [ainsert, alookup, h₀, h₂, h, ih]

theorem alookup_supdate_ne {α : Type} (l : List (String × α)) (k k₂ : String) (v : α)
    (h : k₂ ≠ k) : alookup (supdate l k v) k₂ = alookup l k₂ := by
  induction l with
  | nil => simp [supdate]
  | cons p rest ih =>
    obtain ⟨k₀, w⟩ := p
    by_cases h₀ : k₀ = k
    · subst h₀
      simp [supdate, alookup, Ne.symm h]
    · by_cases h₂ : k₀ = k₂ <;> simp [supdate, alookup, h₀, h₂, h, ih]

theorem alookup_supdate_self {α : Type} (l : List (String × α)) (k : String) (v w : α)
    (h : alookup l k = some w) : alookup (supdate l k v) k = some v := by
  induction l with
  | nil => simp [alookup] at h
  | cons p rest ih =>
    obtain ⟨k₀, w₀⟩ := p
    by_cases h₀ : k₀ = k
    · simp [supdate, alookup, h₀]
    · simp only [alookup, if_neg h₀] at h
      simp [supdate, alookup, h₀, ih h]

theorem alookup_aerase_ne {α : Type} (l : List (String × α)) (k k₂ : String)
    (h : k₂ ≠ k) : alookup (aerase l k) k₂ = alookup l k₂ := by
  induction l with
  | nil => simp [aerase]
  | cons p rest ih =>
    obtain ⟨k₀, w⟩ := p
    by_cases h₀ : k₀ = k
    · subst h₀
      simp [aerase, alookup, Ne.symm h]
    · by_cases h₂ : k₀ = k₂ <;> simp [aerase, alookup, h₀, h₂, h, ih]

theorem alookup_eq_none_of_not_mem {α : Type} (l : List (String × α)) (k : String)
    (h : k ∉ l.map Prod.fst) : alookup l k = none := by
  induction l with
  | nil => rfl
  | cons p rest ih =>
    obtain ⟨k₀, w⟩ := p
    rw [List.map_cons, List.mem_cons] at h
    push_neg at h
    have h₀ : k₀ ≠ k := fun hh => h.1 hh.symm
    simp [alookup, h₀, ih h.2]

theorem alookup_aerase_self {α : Type} (l : List (String × α)) (k : String)
    (h : (l.map Prod.fst).Nodup) : alookup (aerase l k) k = none := by
  induction l with
  | nil => rfl
  | cons p rest ih =>
    obtain ⟨k₀, w⟩ := p
    rw [List.map_cons, List.nodup_cons] at h
    by_cases h₀ : k₀ = k
    · subst h₀
      simp only [aerase, if_pos rfl]
      exact alookup_eq_none_of_not_mem rest k₀ h.1
    · simp [aerase, alookup, h₀, ih h.2]

theorem map_fst_supdate {α : Type} (l : List (String × α)) (k : String) (v : α) :
    (supdate l k v).map Prod.fst = l.map Prod.fst := by
  induction l with
  | nil => rfl
  | cons p rest ih =>
    obtain ⟨k₀, w⟩ := p
    by_cases h₀ : k₀ = k <;> simp [supdate, h₀, ih]

theorem map_fst_aerase_sublist {α : Type} (l : List (String × α)) (k : String) :
    ((aerase l k).map Prod.fst).Sublist (l.map Prod.fst) := by
  induction l with
  | nil => simp [aerase]
  | cons p rest ih =>
    obtain ⟨k₀, w⟩ := p
    by_cases h₀ : k₀ = k
    · simp only [aerase, if_pos h₀, List.map_cons]
      exact List.sublist_cons_self _ _
    · simp only [aerase, if_neg h₀, List.map_cons]
      exact ih.cons₂ _

theorem mem_keys_of_alookup {α : Type} (l : List (String × α)) (k : String) (v : α)
    (h : alookup l k = some v) : k ∈ l.map Prod.fst := by
  induction l with
  | nil => simp [alookup] at h
  | cons p rest ih =>
    obtain ⟨k₀, w⟩ := p
    by_cases h₀ : k₀ = k
    · simp [h₀]
    · simp only [alookup, if_neg h₀] at h
      rw [List.map_cons]
      exact List.mem_cons_of_mem _ (ih h)

theorem ensureAll_total (ds : List String) :
    ∀ fs, ∃ r, ensureAll fs ds = .ok r ∧ ∀ d, (d ∈ r ↔ d ∈ fs ∨ d ∈ ds) := by
  induction ds with
  | nil => intro fs; exact ⟨fs, rfl, by simp⟩
  | cons d ds ih =>
    intro fs
    by_cases hd : d ∈ fs
    · obtain ⟨r, hr, hmem⟩ := ih fs
      refine ⟨r, ?_, ?_⟩
      · simp [ensureAll, ensuredir, mkdir, hd, hr]
      · intro x
        rw [hmem x]
        simp only [List.mem_cons]
        constructor
        · rintro (hx | hx)
          · exact Or.inl hx
          · exact Or.inr (Or.inr hx)
        · rintro (hx | hx | hx)
          · exact Or.inl hx
          · exact Or.inl (hx ▸ hd)
          · exact Or.inr hx
    · obtain ⟨r, hr, hmem⟩ := ih (fs ++ [d])
      refine ⟨r, ?_, ?_⟩
      · simp [ensureAll, ensuredir, mkdir, hd, hr]
      · intro x
        rw [hmem x]
        simp only [List.mem_append, List.mem_singleton, List.mem_cons]
        tauto

theorem ensureAll_of_all_mem (ds : List String) :
    ∀ fs, (∀ d ∈ ds, d ∈ fs) → ensureAll fs ds = .ok fs := by
  induction ds with
  | nil => intro fs _; rfl
  | cons d ds ih =>
    intro fs h
    have hd : d ∈ fs := h d (List.mem_cons_self d ds)
    simp [ensureAll, ensuredir, mkdir, hd,
      ih fs (fun x hx => h x (List.mem_cons_of_mem d hx))]

/-- Claim C9: calling Open twice in succession on the same existing root
directory succeeds both times with no error, and the second call creates no
duplicate or alternate subdirectories: after either call, exactly the
fixed subdirectories (tmp, new, cur, done, failed in spec terms staging,
submittable, owned, completed, failed) and the owner slot of the calling
process exist besides what was already there, with a pre-existing directory
treated as success. -/
theorem claim9_open_idempotent (fs : List String) (pid : Int) :
    ∃ fs₂, openQueue fs pid = .ok fs₂ ∧ openQueue fs₂ pid = .ok fs₂ ∧
      ∀ d, d ∈ fs₂ ↔ d ∈ fs ∨ d ∈ queueSubdirs pid := by
  obtain ⟨r, hr, hmem⟩ := ensureAll_total (queueSubdirs pid) fs
  exact ⟨r, hr, ensureAll_of_all_mem _ _ (fun d hd => (hmem d).mpr (Or.inr hd)), hmem⟩

/-- Claim C3: for every job, key and byte string, a successful Set followed
by Get on the same key returns exactly the bytes written, overwriting any
prior value stored under that key. -/
theorem claim3_set_then_get (tmpFiles props : List (String × List Nat))
    (key : String) (data : List Nat) (tempName : String) (env : SetEnv)
    (h : (jobSet tmpFiles props key data tempName env).err = none) :
    jobGet (jobSet tmpFiles props key data tempName env).props key = .ok data := by
  obtain ⟨t, w, c, r⟩ := env
  cases t with
  | false => simp [jobSet] at h
  | true =>
    cases w with
    | false => simp [jobSet] at h
    | true =>
      cases c with
      | false => simp [jobSet] at h
      | true =>
        cases r with
        | false => simp [jobSet] at h
        | true => simp [jobSet, jobGet, alookup_ainsert_self]

theorem claim3_set_then_get_witness :
    (jobSet [] [("k", [1])] "k" [2, 3] "t1" ⟨true, true, true, true⟩).err = none ∧
    jobGet (jobSet [] [("k", [1])] "k" [2, 3] "t1" ⟨true, true, true, true⟩).props "k" =
      .ok [2, 3] :=
  ⟨by decide, claim3_set_then_get [] [("k", [1])] "k" [2, 3] "t1"
    ⟨true, true, true, true⟩ (by decide)⟩

/-- Claim C6: if Set fails at the temporary-file creation, the write, the
close or the final rename, the property files of the job are left exactly
as they were, so the previous value under the key, if any, is still fully
readable by Get and is never truncated or removed. -/
theorem claim6_failed_set_keeps_value (tmpFiles props : List (String × List Nat))
    (key : String) (data : List Nat) (tempName : String) (env : SetEnv) (e : String)
    (h : (jobSet tmpFiles props key data tempName env).err = some e) :
    (jobSet tmpFiles props key data tempName env).props = props ∧
    jobGet (jobSet tmpFiles props key data tempName env).props key =
      jobGet props key := by
  obtain ⟨t, w, c, r⟩ := env
  cases t with
  | false => exact ⟨rfl, rfl⟩
  | true =>
    cases w with
    | false => exact ⟨rfl, rfl⟩
    | true =>
      cases c with
      | false => exact ⟨rfl, rfl⟩
      | true =>
        cases r with
        | false => exact ⟨rfl, rfl⟩
        | true => simp [jobSet] at h

theorem claim6_failed_set_keeps_value_witness :
    (jobSet [] [("k", [9])] "k" [1, 2] "t1" ⟨true, true, true, false⟩).err =
      some "Rename" ∧
    (jobSet [] [("k", [9])] "k" [1, 2] "t1" ⟨true, true, true, false⟩).props =
      [("k", [9])] ∧
    jobGet (jobSet [] [("k", [9])] "k" [1, 2] "t1" ⟨true, true, true, false⟩).props "k" =
      jobGet [("k", [9])] "k" :=
  ⟨by decide,
    (claim6_failed_set_keeps_value [] [("k", [9])] "k" [1, 2] "t1"
      ⟨true, true, true, false⟩ "Rename" (by decide)).1,
    (claim6_failed_set_keeps_value [] [("k", [9])] "k" [1, 2] "t1"
      ⟨true, true, true, false⟩ "Rename" (by decide)).2⟩

/-- Claim C7: for every queue whose new (spec: submittable) directory lists
no entries, Take returns the none-available outcome, a nil job with no
error, rather than failing. -/
theorem claim7_take_empty (stL stR : QState) (slot : String) (pick : Nat)
    (rest : List (QState × QState × Nat)) (h : stL.new = []) :
    take slot ((stL, stR, pick) :: rest) = some .noneAvail := by
  simp [take, takeStep, h]

theorem claim7_take_empty_witness :
    take "1" [(⟨[], [], [("1", [])], [], []⟩, ⟨[], [], [("1", [])], [], []⟩, 3)] =
      some .noneAvail :=
  claim7_take_empty ⟨[], [], [("1", [])], [], []⟩ ⟨[], [], [("1", [])], [], []⟩
    "1" 3 [] rfl

/-- Claim C8: for each of Submit, Finish and Fail, if the underlying rename
fails, the operation returns the error and leaves both the filesystem and
the location recorded in the job unchanged, never partially transitioned. -/
theorem claim8_failed_transition_unchanged (st : QState) (j : JobH) (e : FsErr) :
    ((submit st j).err = some e → (submit st j).st = st ∧ (submit st j).job = j) ∧
    ((finish st j).err = some e → (finish st j).st = st ∧ (finish st j).job = j) ∧
    ((fail st j).err = some e → (fail st j).st = st ∧ (fail st j).job = j) := by
  refine ⟨?_, ?_, ?_⟩ <;> intro h
  · cases hr : renameDir st j.loc j.basename .new with
    | error e₂ => simp [submit, hr]
    | ok st₂ => simp [submit, hr] at h
  · cases hr : renameDir st j.loc j.basename .done with
    | error e₂ => simp [finish, hr]
    | ok st₂ => simp [finish, hr] at h
  · cases hr : renameDir st j.loc j.basename .failed with
    | error e₂ => simp [fail, hr]
    | ok st₂ => simp [fail, hr] at h

theorem claim8_failed_transition_unchanged_witness :
    (submit ⟨[], [], [], [], []⟩ ⟨"a", .tmp⟩).st = ⟨[], [], [], [], []⟩ ∧
    (submit ⟨[], [], [], [], []⟩ ⟨"a", .tmp⟩).job = ⟨"a", .tmp⟩ :=
  (claim8_failed_transition_unchanged ⟨[], [], [], [], []⟩ ⟨"a", .tmp⟩
    .notExist).1 (by decide)

theorem getD_append_length (l : List String) (b d : String) :
    (l ++ [b]).getD l.length d = b := by
  induction l with
  | nil => rfl
  | cons x xs ih =>
    rw [List.cons_append, List.length_cons, List.getD_cons_succ]
    exact ih

/-- Helper for visibility to Take: when new ends in b and the owner slot
exists without holding b, the Take iteration that picks the index of b
succeeds and returns the job b. -/
theorem takeStep_hits (stQ : QState) (slot b : String) (ls : List String)
    (pre : List String)
    (hQnew : stQ.new = pre ++ [b])
    (hslot : alookup stQ.cur slot = some ls)
    (hns : b ∉ ls) :
    takeStep slot stQ stQ pre.length =
      .took (moveName stQ .new b (.cur slot)) ⟨b, .cur slot⟩ := by
  have hlen : ¬ stQ.new.length = 0 := by rw [hQnew]; simp
  have hgd : stQ.new.getD (pre.length % stQ.new.length) "" = b := by
    rw [hQnew]
    have h1 : (pre ++ [b]).length = pre.length + 1 := by simp
    rw [h1, Nat.mod_eq_of_lt (Nat.lt_succ_self _), getD_append_length]
  have hmem : b ∈ stQ.new := by rw [hQnew]; simp
  have hrn : renameDir stQ .new b (.cur slot) =
      .ok (moveName stQ .new b (.cur slot)) := by
    simp only [renameDir, listDirOpt]
    rw [if_pos hmem]
    simp only [hslot]
    rw [if_neg hns]
  simp only [takeStep]
  rw [if_neg hlen, hgd, hrn]

/-- Claim C4: for every job created in tmp (spec: staging), a successful
Submit renames the job directory from tmp into new (spec: submittable)
under the existing Basename of the job and updates the location of the job
to the new path, after which the job is visible to any worker calling Take:
an iteration of Take that picks it succeeds and returns it. -/
theorem claim4_submit_visible (st : QState) (j : JobH) (slot : String)
    (ls : List String)
    (hloc : j.loc = .tmp)
    (hin : j.basename ∈ st.tmp)
    (hnew : j.basename ∉ st.new)
    (hslot : alookup st.cur slot = some ls)
    (hns : j.basename ∉ ls) :
    (submit st j).err = none ∧
    (submit st j).job = ⟨j.basename, .new⟩ ∧
    j.basename ∈ (submit st j).st.new ∧
    ∃ pick st₂, takeStep slot (submit st j).st (submit st j).st pick =
      .took st₂ ⟨j.basename, .cur slot⟩ := by
  obtain ⟨b, jloc⟩ := j
  dsimp only at hloc hin hnew hns ⊢
  subst hloc
  have hrn : renameDir st .tmp b .new = .ok (moveName st .tmp b .new) := by
    simp only [renameDir, listDirOpt]
    rw [if_pos hin, if_neg hnew]
  have hmv : moveName st .tmp b .new =
      { st with tmp := st.tmp.erase b, new := st.new ++ [b] } := rfl
  have hsub : submit st ⟨b, .tmp⟩ =
      ⟨none, { st with tmp := st.tmp.erase b, new := st.new ++ [b] }, ⟨b, .new⟩⟩ := by
    simp only [submit, hrn, hmv]
  rw [hsub]
  exact ⟨rfl, rfl, by simp, st.new.length, _,
    takeStep_hits _ slot b ls st.new rfl hslot hns⟩

/-- Claim C5: for every job held in the owner slot of the calling worker, a
successful Finish renames the job directory into done (spec: completed) and
Fail into failed, under the Basename of the job, and updates the location
of the job, so that a subsequent listing of done (respectively failed)
contains that name while new (spec: submittable) and the owner slot no
longer do. -/
theorem claim5_finish_fail (st : QState) (j : JobH) (slot : String)
    (ls : List String)
    (hloc : j.loc = .cur slot)
    (hslot : alookup st.cur slot = some ls)
    (hin : j.basename ∈ ls)
    (hnodup : ls.Nodup)
    (hnew : j.basename ∉ st.new)
    (hdone : j.basename ∉ st.done)
    (hfailed : j.basename ∉ st.failed) :
    ((finish st j).err = none ∧
     (finish st j).job = ⟨j.basename, .done⟩ ∧
     j.basename ∈ (finish st j).st.done ∧
     j.basename ∉ (finish st j).st.new ∧
     alookup (finish st j).st.cur slot = some (ls.erase j.basename) ∧
     j.basename ∉ ls.erase j.basename) ∧
    ((fail st j).err = none ∧
     (fail st j).job = ⟨j.basename, .failed⟩ ∧
     j.basename ∈ (fail st j).st.failed ∧
     j.basename ∉ (fail st j).st.new ∧
     alookup (fail st j).st.cur slot = some (ls.erase j.basename) ∧
     j.basename ∉ ls.erase j.basename) := by
  obtain ⟨b, jloc⟩ := j
  dsimp only at hloc hin hnew hdone hfailed ⊢
  subst hloc
  have hne : b ∉ ls.erase b := fun hcon => ((hnodup.mem_erase_iff).mp hcon).1 rfl
  have hcur : alookup (supdate st.cur slot (ls.erase b)) slot =
      some (ls.erase b) := alookup_supdate_self st.cur slot _ ls hslot
  constructor
  · have hrn : renameDir st (.cur slot) b .done =
        .ok (moveName st (.cur slot) b .done) := by
      simp only [renameDir, listDirOpt, hslot]
      rw [if_pos hin, if_neg hdone]
    have hmv : moveName st (.cur slot) b .done =
        { st with cur := supdate st.cur slot (ls.erase b),
                  done := st.done ++ [b] } := by
      simp only [moveName, setDirList, listDirOpt, hslot, Option.getD_some]
    have hfin : finish st ⟨b, .cur slot⟩ =
        ⟨none,
          { st with
            cur := supdate st.cur slot (ls.erase b)
            done := st.done ++ [b] },
          ⟨b, .done⟩⟩ := by
      simp only [finish, hrn, hmv]
    rw [hfin]
    exact ⟨rfl, rfl, by simp, hnew, hcur, hne⟩
  · have hrn : renameDir st (.cur slot) b .failed =
        .ok (moveName st (.cur slot) b .failed) := by
      simp only [renameDir, listDirOpt, hslot]
      rw [if_pos hin, if_neg hfailed]
    have hmv : moveName st (.cur slot) b .failed =
        { st with cur := supdate st.cur slot (ls.erase b),
                  failed := st.failed ++ [b] } := by
      simp only [moveName, setDirList, listDirOpt, hslot, Option.getD_some]
    have hfl : fail st ⟨b, .cur slot⟩ =
        ⟨none,
          { st with
            cur := supdate st.cur slot (ls.erase b)
            failed := st.failed ++ [b] },
          ⟨b, .failed⟩⟩ := by
      simp only [fail, hrn, hmv]
    rw [hfl]
    exact ⟨rfl, rfl, by simp, hnew, hcur, hne⟩

theorem claim4_submit_visible_witness :
    (submit ⟨["j1"], [], [("1", [])], [], []⟩ ⟨"j1", .tmp⟩).err = none ∧
    (submit ⟨["j1"], [], [("1", [])], [], []⟩ ⟨"j1", .tmp⟩).job = ⟨"j1", .new⟩ ∧
    "j1" ∈ (submit ⟨["j1"], [], [("1", [])], [], []⟩ ⟨"j1", .tmp⟩).st.new ∧
    ∃ pick st₂,
      takeStep "1" (submit ⟨["j1"], [], [("1", [])], [], []⟩ ⟨"j1", .tmp⟩).st
          (submit ⟨["j1"], [], [("1", [])], [], []⟩ ⟨"j1", .tmp⟩).st pick =
        .took st₂ ⟨"j1", .cur "1"⟩ :=
  claim4_submit_visible ⟨["j1"], [], [("1", [])], [], []⟩ ⟨"j1", .tmp⟩ "1" []
    rfl (by decide) (by decide) (by decide) (by decide)

theorem claim5_finish_fail_witness :
    (finish ⟨[], [], [("1", ["j1"])], [], []⟩ ⟨"j1", .cur "1"⟩).err = none ∧
    "j1" ∈ (finish ⟨[], [], [("1", ["j1"])], [], []⟩ ⟨"j1", .cur "1"⟩).st.done ∧
    (fail ⟨[], [], [("1", ["j1"])], [], []⟩ ⟨"j1", .cur "1"⟩).err = none ∧
    "j1" ∈ (fail ⟨[], [], [("1", ["j1"])], [], []⟩ ⟨"j1", .cur "1"⟩).st.failed := by
  have h := claim5_finish_fail ⟨[], [], [("1", ["j1"])], [], []⟩ ⟨"j1", .cur "1"⟩
    "1" ["j1"] rfl (by decide) (by decide) (by decide) (by decide) (by decide)
    (by decide)
  exact ⟨h.1.1, h.1.2.2.1, h.2.1, h.2.2.2.1⟩

/-- Claim C2: in Take, when the attempted rename of the chosen name from
new (spec: submittable) into the owner slot fails because the source no
longer exists, Take does not return an error and retries from the listing
step; any other rename failure makes Take return that failure as an error
without returning a job. -/
theorem claim2_take_retry (slot : String) (stL stR : QState) (pick : Nat)
    (rest : List (QState × QState × Nat)) (hne : stL.new ≠ []) :
    (stL.new.getD (pick % stL.new.length) "" ∉ stR.new →
      take slot ((stL, stR, pick) :: rest) = take slot rest) ∧
    (∀ e, renameDir stR .new (stL.new.getD (pick % stL.new.length) "")
        (.cur slot) = .error e → e ≠ .notExist →
      take slot ((stL, stR, pick) :: rest) = some (.ioError e)) := by
  have hlen : ¬ stL.new.length = 0 := fun h0 => hne (List.length_eq_zero.mp h0)
  constructor
  · intro hmem
    have hrn : renameDir stR .new (stL.new.getD (pick % stL.new.length) "")
        (.cur slot) = .error .notExist := by
      simp only [renameDir, listDirOpt]
      rw [if_neg hmem]
    simp only [take, takeStep]
    rw [if_neg hlen, hrn]
  · intro e hr hnen
    cases e with
    | notExist => exact absurd rfl hnen
    | exist =>
      simp only [take, takeStep]
      rw [if_neg hlen, hr]
    | other m =>
      simp only [take, takeStep]
      rw [if_neg hlen, hr]

theorem claim2_take_retry_witness :
    take "1" [(⟨[], ["a"], [("1", [])], [], []⟩, ⟨[], [], [("1", [])], [], []⟩, 0)] =
      none ∧
    take "1" [(⟨[], ["a"], [("1", ["a"])], [], []⟩,
               ⟨[], ["a"], [("1", ["a"])], [], []⟩, 0)] =
      some (.ioError .exist) :=
  ⟨((claim2_take_retry "1" ⟨[], ["a"], [("1", [])], [], []⟩
      ⟨[], [], [("1", [])], [], []⟩ 0 [] (by decide)).1 (by decide)).trans rfl,
   (claim2_take_retry "1" ⟨[], ["a"], [("1", ["a"])], [], []⟩
      ⟨[], ["a"], [("1", ["a"])], [], []⟩ 0 [] (by decide)).2 .exist
      rfl (by decide)⟩


/-! Lemmas about the rescue sweep. -/

theorem foldRF_new_mono (jobs : List String) :
    ∀ acc x, x ∈ acc.new → x ∈ (jobs.foldl rescueFromStep acc).new := by
  induction jobs with
  | nil => intro acc x hx; exact hx
  | cons j js ih =>
    intro acc x hx
    rw [List.foldl_cons]
    refine ih _ x ?_
    by_cases hj : j ∈ acc.new
    · simpa [rescueFromStep, hj] using hx
    · simp only [rescueFromStep, if_neg hj]
      exact List.mem_append_left _ hx

theorem foldRF_new_from (jobs : List String) :
    ∀ acc x, x ∈ (jobs.foldl rescueFromStep acc).new → x ∈ acc.new ∨ x ∈ jobs := by
  induction jobs with
  | nil => intro acc x hx; exact Or.inl hx
  | cons j js ih =>
    intro acc x hx
    rw [List.foldl_cons] at hx
    rcases ih _ x hx with hx₂ | hx₂
    · by_cases hj : j ∈ acc.new
      · rw [rescueFromStep, if_pos hj] at hx₂
        exact Or.inl hx₂
      · rw [rescueFromStep, if_neg hj] at hx₂
        rcases List.mem_append.mp hx₂ with h | h
        · exact Or.inl h
        · exact Or.inr (by rw [List.mem_singleton.mp h]; exact List.mem_cons_self j js)
    · exact Or.inr (List.mem_cons_of_mem j hx₂)

theorem foldRF_rem_from (jobs : List String) :
    ∀ acc x, x ∈ (jobs.foldl rescueFromStep acc).remaining →
      x ∈ acc.remaining ∨ x ∈ jobs := by
  induction jobs with
  | nil => intro acc x hx; exact Or.inl hx
  | cons j js ih =>
    intro acc x hx
    rw [List.foldl_cons] at hx
    rcases ih _ x hx with hx₂ | hx₂
    · by_cases hj : j ∈ acc.new
      · rw [rescueFromStep, if_pos hj] at hx₂
        rcases List.mem_append.mp hx₂ with h | h
        · exact Or.inl h
        · exact Or.inr (by rw [List.mem_singleton.mp h]; exact List.mem_cons_self j js)
      · rw [rescueFromStep, if_neg hj] at hx₂
        exact Or.inl hx₂
    · exact Or.inr (List.mem_cons_of_mem j hx₂)

theorem foldRF_clean (jobs : List String) :
    ∀ acc, jobs.Nodup → (∀ j ∈ jobs, j ∉ acc.new) →
      (jobs.foldl rescueFromStep acc).new = acc.new ++ jobs ∧
      (jobs.foldl rescueFromStep acc).remaining = acc.remaining := by
  induction jobs with
  | nil => intro acc _ _; exact ⟨by simp, rfl⟩
  | cons j js ih =>
    intro acc hnd hdisj
    rw [List.nodup_cons] at hnd
    have hj : j ∉ acc.new := hdisj j (List.mem_cons_self j js)
    rw [List.foldl_cons, rescueFromStep, if_neg hj]
    have hdisj₂ : ∀ k ∈ js, k ∉ acc.new ++ [j] := by
      intro k hk
      rw [List.mem_append, List.mem_singleton]
      rintro (h | rfl)
      · exact hdisj k (List.mem_cons_of_mem j hk) h
      · exact hnd.1 hk
    obtain ⟨h1, h2⟩ :=
      ih ⟨acc.new ++ [j], acc.remaining, acc.log ++ ["Rescueduled job " ++ j]⟩
        hnd.2 hdisj₂
    refine ⟨?_, h2⟩
    rw [h1, List.append_assoc]
    rfl

theorem rescueFrom_clean (new jobs : List String) (hnd : jobs.Nodup)
    (hdisj : ∀ j ∈ jobs, j ∉ new) :
    (rescueFrom new jobs).new = new ++ jobs ∧
    (rescueFrom new jobs).remaining = [] :=
  foldRF_clean jobs ⟨new, [], []⟩ hnd hdisj

/-- A rescue iteration never touches slot s when the pid parsed from s does
not probe dead: the only slots an iteration modifies are the canonical slot
of a pid that probed dead, and by the atoi-itoa round trip such a slot name
parses back to that pid. -/
theorem rescueStep_untouched (probe : Int → ProbeResult) (acc : SweepAcc)
    (t s : String) (pid : Int) (J : List String)
    (ha : atoi s = some pid) (hnd : probe pid ≠ .dead)
    (h : alookup acc.st.cur s = some J) :
    alookup (rescueStep probe acc t).st.cur s = some J := by
  rcases hato : atoi t with _ | pid₂
  · simpa [rescueStep, hato] using h
  rcases hpr : probe pid₂ with _ | _ | m
  · simpa [rescueStep, hato, hpr] using h
  · rcases hsl : alookup acc.st.cur (itoa pid₂) with _ | jobs
    · simpa [rescueStep, hato, hpr, hsl] using h
    · have hus : itoa pid₂ ≠ s := by
        intro hu
        have h1 : atoi s = some pid₂ := by rw [← hu]; exact atoi_itoa pid₂
        rw [ha] at h1
        have : pid = pid₂ := by injection h1
        rw [this] at hnd
        exact hnd hpr
      by_cases hre : (rescueFrom acc.st.new jobs).remaining = []
      · have hst : (rescueStep probe acc t).st.cur =
            aerase acc.st.cur (itoa pid₂) := by
          simp [rescueStep, hato, hpr, hsl, hre]
        rw [hst, alookup_aerase_ne _ _ _ (Ne.symm hus)]
        exact h
      · have hst : (rescueStep probe acc t).st.cur =
            supdate acc.st.cur (itoa pid₂) (rescueFrom acc.st.new jobs).remaining := by
          simp [rescueStep, hato, hpr, hsl, hre]
        rw [hst, alookup_supdate_ne _ _ _ _ (Ne.symm hus)]
        exact h
  · simpa [rescueStep, hato, hpr] using h

theorem foldl_rescue_untouched (probe : Int → ProbeResult) (s : String)
    (pid : Int) (J : List String) (ha : atoi s = some pid)
    (hnd : probe pid ≠ .dead) (names : List String) :
    ∀ acc, alookup acc.st.cur s = some J →
      alookup ((names.foldl (rescueStep probe) acc)).st.cur s = some J := by
  induction names with
  | nil => intro acc h; exact h
  | cons t ts ih =>
    intro acc h
    rw [List.foldl_cons]
    exact ih _ (rescueStep_untouched probe acc t s pid J ha hnd h)

/-- A rescue iteration never recreates a removed slot and never removes a
job from new. -/
theorem rescueStep_done (probe : Int → ProbeResult) (acc : SweepAcc)
    (t s : String) (J : List String)
    (hs : alookup acc.st.cur s = none) (hn : ∀ j ∈ J, j ∈ acc.st.new) :
    alookup (rescueStep probe acc t).st.cur s = none ∧
    ∀ j ∈ J, j ∈ (rescueStep probe acc t).st.new := by
  rcases hato : atoi t with _ | pid₂
  · exact ⟨by simpa [rescueStep, hato] using hs, by simpa [rescueStep, hato] using hn⟩
  rcases hpr : probe pid₂ with _ | _ | m
  · exact ⟨by simpa [rescueStep, hato, hpr] using hs,
      by simpa [rescueStep, hato, hpr] using hn⟩
  · rcases hsl : alookup acc.st.cur (itoa pid₂) with _ | jobs
    · exact ⟨by simpa [rescueStep, hato, hpr, hsl] using hs,
        by simpa [rescueStep, hato, hpr, hsl] using hn⟩
    · have hus : itoa pid₂ ≠ s := fun hu => by rw [hu, hs] at hsl; cases hsl
      by_cases hre : (rescueFrom acc.st.new jobs).remaining = []
      · have hcur : (rescueStep probe acc t).st.cur =
            aerase acc.st.cur (itoa pid₂) := by
          simp [rescueStep, hato, hpr, hsl, hre]
        have hnew : (rescueStep probe acc t).st.new =
            (rescueFrom acc.st.new jobs).new := by
          simp [rescueStep, hato, hpr, hsl, hre]
        refine ⟨?_, ?_⟩
        · rw [hcur, alookup_aerase_ne _ _ _ (Ne.symm hus)]; exact hs
        · intro j hj
          rw [hnew]
          exact foldRF_new_mono jobs _ j (hn j hj)
      · have hcur : (rescueStep probe acc t).st.cur =
            supdate acc.st.cur (itoa pid₂) (rescueFrom acc.st.new jobs).remaining := by
          simp [rescueStep, hato, hpr, hsl, hre]
        have hnew : (rescueStep probe acc t).st.new =
            (rescueFrom acc.st.new jobs).new := by
          simp [rescueStep, hato, hpr, hsl, hre]
        refine ⟨?_, ?_⟩
        · rw [hcur, alookup_supdate_ne _ _ _ _ (Ne.symm hus)]; exact hs
        · intro j hj
          rw [hnew]
          exact foldRF_new_mono jobs _ j (hn j hj)
  · exact ⟨by simpa [rescueStep, hato, hpr] using hs,
      by simpa [rescueStep, hato, hpr] using hn⟩

theorem foldl_rescue_done (probe : Int → ProbeResult) (s : String)
    (J : List String) (names : List String) :
    ∀ acc, alookup acc.st.cur s = none → (∀ j ∈ J, j ∈ acc.st.new) →
      alookup ((names.foldl (rescueStep probe) acc)).st.cur s = none ∧
      ∀ j ∈ J, j ∈ ((names.foldl (rescueStep probe) acc)).st.new := by
  induction names with
  | nil => intro acc hs hn; exact ⟨hs, hn⟩
  | cons t ts ih =>
    intro acc hs hn
    rw [List.foldl_cons]
    obtain ⟨hs₂, hn₂⟩ := rescueStep_done probe acc t s J hs hn
    exact ih _ hs₂ hn₂

theorem rescueStep_log_mono (probe : Int → ProbeResult) (acc : SweepAcc)
    (t : String) : ∀ x ∈ acc.log, x ∈ (rescueStep probe acc t).log := by
  intro x hx
  rcases hato : atoi t with _ | pid₂
  · simp only [rescueStep, hato]
    exact List.mem_append_left _ hx
  rcases hpr : probe pid₂ with _ | _ | m
  · simpa [rescueStep, hato, hpr] using hx
  · rcases hsl : alookup acc.st.cur (itoa pid₂) with _ | jobs
    · simp only [rescueStep, hato, hpr, hsl]
      exact List.mem_append_left _ (List.mem_append_left _
        (List.mem_append_left _ hx))
    · by_cases hre : (rescueFrom acc.st.new jobs).remaining = []
      · simp only [rescueStep, hato, hpr, hsl, hre, if_pos]
        exact List.mem_append_left _ (List.mem_append_left _ hx)
      · simp only [rescueStep, hato, hpr, hsl, if_neg hre]
        exact List.mem_append_left _ (List.mem_append_left _
          (List.mem_append_left _ hx))
  · simp only [rescueStep, hato, hpr]
    exact List.mem_append_left _ hx

theorem foldl_rescue_log_mono (probe : Int → ProbeResult) (names : List String) :
    ∀ acc x, x ∈ acc.log → x ∈ ((names.foldl (rescueStep probe) acc)).log := by
  induction names with
  | nil => intro acc x hx; exact hx
  | cons t ts ih =>
    intro acc x hx
    rw [List.foldl_cons]
    exact ih _ x (rescueStep_log_mono probe acc t x hx)

theorem RescueInv_of_st_eq (st₀ : QState) (s : String) (J : List String)
    {a b : SweepAcc} (h : b.st = a.st) (hinv : RescueInv st₀ s J a) :
    RescueInv st₀ s J b := by
  unfold RescueInv at hinv ⊢
  rw [h]
  exact hinv

theorem rescueStep_inv (probe : Int → ProbeResult) (st₀ : QState) (s : String)
    (pid : Int) (J : List String) (t : String) (acc : SweepAcc)
    (hc : itoa pid = s) (hp : probe pid = .dead) (hJnd : J.Nodup)
    (hdO : ∀ u l, u ≠ s → alookup st₀.cur u = some l → ∀ j ∈ J, j ∉ l)
    (hinv : RescueInv st₀ s J acc) :
    RescueInv st₀ s J (rescueStep probe acc t) := by
  obtain ⟨hkeys, hsub, hpd⟩ := hinv
  rcases hato : atoi t with _ | pid₂
  · exact RescueInv_of_st_eq st₀ s J (by simp [rescueStep, hato])
      ⟨hkeys, hsub, hpd⟩
  rcases hpr : probe pid₂ with _ | _ | m
  · exact RescueInv_of_st_eq st₀ s J (by simp [rescueStep, hato, hpr])
      ⟨hkeys, hsub, hpd⟩
  · rcases hsl : alookup acc.st.cur (itoa pid₂) with _ | jobs
    · exact RescueInv_of_st_eq st₀ s J (by simp [rescueStep, hato, hpr, hsl])
        ⟨hkeys, hsub, hpd⟩
    · by_cases hus : itoa pid₂ = s
      · rcases hpd with ⟨hps, hpn⟩ | ⟨hds, hdn⟩
        · have hJ : jobs = J := by
            rw [hus] at hsl
            exact Option.some.inj (hsl.symm.trans hps)
          subst hJ
          have hclean := rescueFrom_clean acc.st.new jobs hJnd hpn
          have hcur : (rescueStep probe acc t).st.cur =
              aerase acc.st.cur (itoa pid₂) := by
            simp [rescueStep, hato, hpr, hsl, hclean.2]
          have hnew : (rescueStep probe acc t).st.new = acc.st.new ++ jobs := by
            simp [rescueStep, hato, hpr, hsl, hclean.1, hclean.2]
          refine ⟨?_, ?_, Or.inr ⟨?_, ?_⟩⟩
          · rw [hcur]
            exact (map_fst_aerase_sublist _ _).nodup hkeys
          · intro tq l hl
            rw [hcur] at hl
            by_cases htq : tq = itoa pid₂
            · rw [htq, alookup_aerase_self _ _ hkeys] at hl
              cases hl
            · rw [alookup_aerase_ne _ _ _ htq] at hl
              exact hsub tq l hl
          · rw [hcur, ← hus]
            exact alookup_aerase_self _ _ hkeys
          · intro j hj
            rw [hnew]
            exact List.mem_append_right _ hj
        · rw [hus] at hsl
          exact absurd (hds.symm.trans hsl) (by simp)
      · obtain ⟨l₀, hl₀, hsubl⟩ := hsub (itoa pid₂) jobs hsl
        have hdisj : ∀ j ∈ J, j ∉ jobs := fun j hj hjin =>
          hdO (itoa pid₂) l₀ hus hl₀ j hj (hsubl hjin)
        have hnes : s ≠ itoa pid₂ := fun hh => hus hh.symm
        by_cases hre : (rescueFrom acc.st.new jobs).remaining = []
        · have hcur : (rescueStep probe acc t).st.cur =
              aerase acc.st.cur (itoa pid₂) := by
            simp [rescueStep, hato, hpr, hsl, hre]
          have hnew : (rescueStep probe acc t).st.new =
              (rescueFrom acc.st.new jobs).new := by
            simp [rescueStep, hato, hpr, hsl, hre]
          refine ⟨?_, ?_, ?_⟩
          · rw [hcur]
            exact (map_fst_aerase_sublist _ _).nodup hkeys
          · intro tq l hl
            rw [hcur] at hl
            by_cases htq : tq = itoa pid₂
            · rw [htq, alookup_aerase_self _ _ hkeys] at hl
              cases hl
            · rw [alookup_aerase_ne _ _ _ htq] at hl
              exact hsub tq l hl
          · rcases hpd with ⟨hps, hpn⟩ | ⟨hds, hdn⟩
            · refine Or.inl ⟨?_, ?_⟩
              · rw [hcur, alookup_aerase_ne _ _ _ hnes]
                exact hps
              · intro j hj hjn
                rw [hnew] at hjn
                rcases foldRF_new_from jobs _ j hjn with h | h
                · exact hpn j hj h
                · exact hdisj j hj h
            · refine Or.inr ⟨?_, ?_⟩
              · rw [hcur, alookup_aerase_ne _ _ _ hnes]
                exact hds
              · intro j hj
                rw [hnew]
                exact foldRF_new_mono jobs _ j (hdn j hj)
        · have hcur : (rescueStep probe acc t).st.cur =
              supdate acc.st.cur (itoa pid₂)
                (rescueFrom acc.st.new jobs).remaining := by
            simp [rescueStep, hato, hpr, hsl, hre]
          have hnew : (rescueStep probe acc t).st.new =
              (rescueFrom acc.st.new jobs).new := by
            simp [rescueStep, hato, hpr, hsl, hre]
          refine ⟨?_, ?_, ?_⟩
          · rw [hcur, map_fst_supdate]
            exact hkeys
          · intro tq l hl
            rw [hcur] at hl
            by_cases htq : tq = itoa pid₂
            · subst htq
              rw [alookup_supdate_self _ _ _ jobs hsl] at hl
              refine ⟨l₀, hl₀, ?_⟩
              intro x hx
              rw [← Option.some.inj hl] at hx
              rcases foldRF_rem_from jobs _ x hx with h | h
              · cases h
              · exact hsubl h
            · rw [alookup_supdate_ne _ _ _ _ htq] at hl
              exact hsub tq l hl
          · rcases hpd with ⟨hps, hpn⟩ | ⟨hds, hdn⟩
            · refine Or.inl ⟨?_, ?_⟩
              · rw [hcur, alookup_supdate_ne _ _ _ _ hnes]
                exact hps
              · intro j hj hjn
                rw [hnew] at hjn
                rcases foldRF_new_from jobs _ j hjn with h | h
                · exact hpn j hj h
                · exact hdisj j hj h
            · refine Or.inr ⟨?_, ?_⟩
              · rw [hcur, alookup_supdate_ne _ _ _ _ hnes]
                exact hds
              · intro j hj
                rw [hnew]
                exact foldRF_new_mono jobs _ j (hdn j hj)
  · exact RescueInv_of_st_eq st₀ s J (by simp [rescueStep, hato, hpr])
      ⟨hkeys, hsub, hpd⟩

theorem foldl_rescue_inv (probe : Int → ProbeResult) (st₀ : QState)
    (s : String) (pid : Int) (J : List String)
    (hc : itoa pid = s) (hp : probe pid = .dead) (hJnd : J.Nodup)
    (hdO : ∀ u l, u ≠ s → alookup st₀.cur u = some l → ∀ j ∈ J, j ∉ l)
    (names : List String) :
    ∀ acc, RescueInv st₀ s J acc →
      RescueInv st₀ s J (names.foldl (rescueStep probe) acc) := by
  induction names with
  | nil => intro acc h; exact h
  | cons t ts ih =>
    intro acc h
    rw [List.foldl_cons]
    exact ih _ (rescueStep_inv probe st₀ s pid J t acc hc hp hJnd hdO h)

/-- The iteration of the rescue sweep that processes the listed name s
itself: if slot s was still pending it is rescued now (the slot it reads is
cur/Itoa(pid), equal to s by the canonicality hypothesis); if it was
already done it stays done. -/
theorem rescueStep_at_s (probe : Int → ProbeResult) (st₀ : QState)
    (s : String) (pid : Int) (J : List String) (acc : SweepAcc)
    (hc : itoa pid = s) (hp : probe pid = .dead) (hJnd : J.Nodup)
    (hinv : RescueInv st₀ s J acc) :
    alookup (rescueStep probe acc s).st.cur s = none ∧
    ∀ j ∈ J, j ∈ (rescueStep probe acc s).st.new := by
  have ha : atoi s = some pid := by rw [← hc]; exact atoi_itoa pid
  obtain ⟨hkeys, hsub, hpd⟩ := hinv
  rcases hpd with ⟨hps, hpn⟩ | ⟨hds, hdn⟩
  · have hsl : alookup acc.st.cur (itoa pid) = some J := by rw [hc]; exact hps
    have hclean := rescueFrom_clean acc.st.new J hJnd hpn
    have hcur : (rescueStep probe acc s).st.cur =
        aerase acc.st.cur (itoa pid) := by
      simp [rescueStep, ha, hp, hsl, hclean.2]
    have hnew : (rescueStep probe acc s).st.new = acc.st.new ++ J := by
      simp [rescueStep, ha, hp, hsl, hclean.1, hclean.2]
    constructor
    · rw [hcur, ← hc]
      exact alookup_aerase_self _ _ hkeys
    · intro j hj
      rw [hnew]
      exact List.mem_append_right _ hj
  · exact rescueStep_done probe acc s s J hds hdn

/-- Claim C1 (amended): for every owner slot under cur whose name parses as
a process identifier: if the identifier probes alive, RescueDeadJobs leaves
the slot and every job in it untouched; if the identifier probes dead and
the slot name is the canonical decimal rendering of the identifier (the
sweep reads and removes cur/Itoa(pid), so a non-canonical name such as 007
is not rescued), then, provided the job names of the slot are distinct and
collide neither with new nor with any other slot, RescueDeadJobs renames
every job in the slot into new and removes the now-empty slot directory. -/
theorem claim1_rescue (probe : Int → ProbeResult) (st : QState) (s : String)
    (pid : Int) (J : List String)
    (hkeys : (st.cur.map Prod.fst).Nodup)
    (hslot : alookup st.cur s = some J)
    (hpid : atoi s = some pid) :
    (probe pid = .alive →
      alookup (rescueDeadJobs probe st).st.cur s = some J) ∧
    (probe pid = .dead → itoa pid = s → J.Nodup →
      (∀ j ∈ J, j ∉ st.new) →
      (∀ u l, u ≠ s → alookup st.cur u = some l → ∀ j ∈ J, j ∉ l) →
      alookup (rescueDeadJobs probe st).st.cur s = none ∧
      ∀ j ∈ J, j ∈ (rescueDeadJobs probe st).st.new) := by
  constructor
  · intro hal
    exact foldl_rescue_untouched probe s pid J hpid (by simp [hal]) _ _ hslot
  · intro hp hc hJnd hdN hdO
    have hmem : s ∈ st.cur.map Prod.fst := mem_keys_of_alookup _ _ _ hslot
    obtain ⟨l₁, l₂, hsplit⟩ := List.append_of_mem hmem
    rw [rescueDeadJobs, hsplit, List.foldl_append, List.foldl_cons]
    have hinv₀ : RescueInv st s J ⟨st, []⟩ :=
      ⟨hkeys, fun u l h => ⟨l, h, fun x hx => hx⟩, Or.inl ⟨hslot, hdN⟩⟩
    have hinv₁ := foldl_rescue_inv probe st s pid J hc hp hJnd hdO l₁ _ hinv₀
    have hdone := rescueStep_at_s probe st s pid J _ hc hp hJnd hinv₁
    exact foldl_rescue_done probe s J l₂ _ hdone.1 hdone.2

/-- Claim C1 counterexample: the slot name 007 parses as process identifier
7 via Atoi, the identifier probes dead, yet RescueDeadJobs moves nothing
into new and leaves the slot with its job in place, because the sweep
rescues from and removes cur/Itoa(7), that is cur/7, not cur/007. -/
theorem claim1_rescue_cex :
    atoi "007" = some 7 ∧
    (rescueDeadJobs (fun _ => .dead)
      ⟨[], [], [("007", ["X"])], [], []⟩).st.new = [] ∧
    alookup (rescueDeadJobs (fun _ => .dead)
      ⟨[], [], [("007", ["X"])], [], []⟩).st.cur "007" = some ["X"] := by
  decide

theorem claim1_rescue_witness :
    alookup (rescueDeadJobs (fun p => if p = 5 then .alive else .dead)
      ⟨[], [], [("7", ["X"])], [], []⟩).st.cur "7" = none ∧
    "X" ∈ (rescueDeadJobs (fun p => if p = 5 then .alive else .dead)
      ⟨[], [], [("7", ["X"])], [], []⟩).st.new := by
  have h := (claim1_rescue (fun p => if p = 5 then .alive else .dead)
      ⟨[], [], [("7", ["X"])], [], []⟩ "7" 7 ["X"]
      (by decide) (by decide) (by decide)).2 (by decide) (by decide)
      (by decide) (by decide) ?hdo
  case hdo =>
    intro u l hu hl j hj
    have hk : u = "7" := by simpa using mem_keys_of_alookup _ _ _ hl
    exact absurd hk hu
  exact ⟨h.1, h.2 "X" (List.mem_cons_self _ _)⟩

/-- Claim C10: during RescueDeadJobs, an owner whose liveness probe returns
an error (indeterminate outcome) is logged and skipped: its slot keeps
exactly the jobs it had and is not removed; jobs are rescued only from
owners whose probe definitively reports dead. -/
theorem claim10_probe_error (probe : Int → ProbeResult) (st : QState)
    (s : String) (pid : Int) (J : List String) (m : String)
    (hslot : alookup st.cur s = some J)
    (hpid : atoi s = some pid)
    (hp : probe pid = .err m) :
    alookup (rescueDeadJobs probe st).st.cur s = some J ∧
    ("Kill failed for PID " ++ itoa pid ++ ": " ++ m) ∈
      (rescueDeadJobs probe st).log := by
  constructor
  · exact foldl_rescue_untouched probe s pid J hpid (by simp [hp]) _ _ hslot
  · have hmem : s ∈ st.cur.map Prod.fst := mem_keys_of_alookup _ _ _ hslot
    obtain ⟨l₁, l₂, hsplit⟩ := List.append_of_mem hmem
    rw [rescueDeadJobs, hsplit, List.foldl_append, List.foldl_cons]
    apply foldl_rescue_log_mono
    simp only [rescueStep, hpid, hp]
    exact List.mem_append_right _ (List.mem_singleton_self _)

theorem claim10_probe_error_witness :
    alookup (rescueDeadJobs (fun _ => .err "EPERM")
      ⟨[], [], [("3", ["Z"])], [], []⟩).st.cur "3" = some ["Z"] ∧
    ("Kill failed for PID " ++ itoa 3 ++ ": " ++ "EPERM") ∈
      (rescueDeadJobs (fun _ => .err "EPERM")
        ⟨[], [], [("3", ["Z"])], [], []⟩).log :=
  claim10_probe_error (fun _ => .err "EPERM") ⟨[], [], [("3", ["Z"])], [], []⟩
    "3" 3 ["Z"] "EPERM" (by decide) (by decide) (by decide)

end Pqueue
